import Mathlib

/-!
# Verification of the air-quality query program (`src/project1.py`)

This file gives a shallow embedding of the core of `project1.py` — the two
CSV loaders (`read_pollution`, `read_uhf`), their helper functions
(`_to_int_safe`, `_to_float_safe`, `_norm_borough`, `_expand_uhf_code`),
and the four query functions — and proves the specification claims about
them.

Modelling conventions:
* A Python `str` is modelled as a `List Char` (`Str`); concrete literals are
  written through `ltr`.  Whitespace and case handling are modelled for the
  ASCII range, which covers every character class the program manipulates.
* A Python `dict` is modelled as an insertion-ordered association list
  (`List (key × value)`); `alUpd` models `d.setdefault(k, dflt)` followed by
  an in-place mutation of `d[k]`, and `alGet` models `d.get(k, [])`.
* Python `float` parsing is modelled as exact scaled-decimal parsing into
  `PyFloat` (a numerator/denominator pair); the program never performs
  floating-point arithmetic on the parsed values, it only stores and
  returns them, so exact decimals are a faithful model of the values the
  claims mention.
* File access is modelled by passing the parsed row list directly; a missing
  file is modelled as `none` in the `*_file` wrappers, whose `Bool` result
  records that the diagnostic message was printed.
-/

/-- A Python string, modelled as its list of characters. -/
abbrev Str := List Char

/-- Embed a Lean string literal as a `Str`. -/
def ltr (s : String) : Str := s.toList

/-- ASCII whitespace, as stripped by Python's `str.strip()`. -/
def isSpaceA (c : Char) : Bool :=
  c = ' ' || c = '\t' || c = '\n' || c = '\x0d' || c = '\x0b' || c = '\x0c'

/-- ASCII decimal digit test, as used by Python's `str.isdigit()`. -/
def isDigitCh (c : Char) : Bool := '0' ≤ c && c ≤ '9'

/-- Python `s.isdigit()`: non-empty and all digits. -/
def pyIsDigit (s : Str) : Bool := !s.isEmpty && s.all isDigitCh

/-- Numeric value of an all-digits string (`int` on a digit string). -/
def digitsVal (s : Str) : Nat := s.foldl (fun n c => 10 * n + (c.toNat - 48)) 0

/-- Drop leading whitespace (one side of Python's `str.strip()`). -/
def lstrip : Str → Str
  | [] => []
  | c :: cs => if isSpaceA c then lstrip cs else c :: cs

/-- Python `str.strip()`: drop whitespace from both ends. -/
def pyStrip (s : Str) : Str := lstrip ((lstrip s.reverse).reverse)

/-- The 26 ASCII letter pairs (uppercase, lowercase). -/
def caseTable : List (Char × Char) :=
  [('A', 'a'), ('B', 'b'), ('C', 'c'), ('D', 'd'), ('E', 'e'), ('F', 'f'),
   ('G', 'g'), ('H', 'h'), ('I', 'i'), ('J', 'j'), ('K', 'k'), ('L', 'l'),
   ('M', 'm'), ('N', 'n'), ('O', 'o'), ('P', 'p'), ('Q', 'q'), ('R', 'r'),
   ('S', 's'), ('T', 't'), ('U', 'u'), ('V', 'v'), ('W', 'w'), ('X', 'x'),
   ('Y', 'y'), ('Z', 'z')]

/-- ASCII lower-casing of one character. -/
def toLowA (c : Char) : Char :=
  match caseTable.find? (fun p => p.1 = c) with
  | some p => p.2
  | none => c

/-- ASCII upper-casing of one character. -/
def toUppA (c : Char) : Char :=
  match caseTable.find? (fun p => p.2 = c) with
  | some p => p.1
  | none => c

/-- ASCII alphabetic test (Python's notion of a cased character, ASCII range). -/
def isAlphaA (c : Char) : Bool := caseTable.any (fun p => p.1 = c || p.2 = c)

/-- Python `str.lower()` over a whole string. -/
def lowerStr (s : Str) : Str := s.map toLowA

/-- Worker for Python `str.title()`: the flag records whether the previous
character was alphabetic; a letter after a non-letter is upper-cased, a
letter after a letter is lower-cased, other characters are unchanged. -/
def titleAux : Bool → Str → Str
  | _, [] => []
  | b, c :: cs => (if b then toLowA c else toUppA c) :: titleAux (isAlphaA c) cs

/-- Python `str.title()`. -/
def pyTitle (s : Str) : Str := titleAux false s

/-- `_norm_borough` from the source: `str(name).strip().title()`. -/
def normBorough (s : Str) : Str := pyTitle (pyStrip s)

/-- Parse an optionally-signed run of digits that must span the whole string
(the grammar accepted by Python's `int(...)` on an already-stripped string,
ASCII digits). -/
def parseIntCore : Str → Option Int
  | [] => none
  | '+' :: r => if pyIsDigit r then some (Int.ofNat (digitsVal r)) else none
  | '-' :: r => if pyIsDigit r then some (-(Int.ofNat (digitsVal r))) else none
  | s => if pyIsDigit s then some (Int.ofNat (digitsVal s)) else none

/-- `_to_int_safe` from the source: `int(str(x).strip())`, `None` on failure. -/
def toIntSafe (s : Str) : Option Int := parseIntCore (pyStrip s)

/-- An exact scaled decimal: the value `num / den`.  Models the result of
Python's `float(...)` on the decimal literals this program handles; the
program never computes with the value, so the exact representation is a
faithful model. -/
structure PyFloat where
  num : Int
  den : Nat
deriving DecidableEq

/-- Parse an unsigned decimal mantissa: digits, optionally a dot and more
digits (at least one digit overall).  Returns the mantissa value, the number
of fractional digits and the unconsumed remainder. -/
def parseMantissa (s : Str) : Option (Nat × Nat × Str) :=
  let ip := s.takeWhile isDigitCh
  let r1 := s.dropWhile isDigitCh
  match r1 with
  | '.' :: r2 =>
      let fp := r2.takeWhile isDigitCh
      let r3 := r2.dropWhile isDigitCh
      if ip.isEmpty && fp.isEmpty then none
      else some (digitsVal (ip ++ fp), fp.length, r3)
  | _ => if ip.isEmpty then none else some (digitsVal ip, 0, r1)

/-- Apply an optional exponent suffix to a parsed mantissa. -/
def applyExp (base : Int) (fd : Nat) (r : Str) : Option PyFloat :=
  match parseIntCore r with
  | none => none
  | some e =>
      if 0 ≤ e then some ⟨base * (10 ^ e.toNat : Nat), 10 ^ fd⟩
      else some ⟨base, 10 ^ (fd + (-e).toNat)⟩

/-- Parse the part of a float after the optional sign. -/
def parseFloatMag (neg : Bool) (s : Str) : Option PyFloat :=
  match parseMantissa s with
  | none => none
  | some (man, fd, rest) =>
      let base : Int := if neg then -(Int.ofNat man) else Int.ofNat man
      match rest with
      | [] => some ⟨base, 10 ^ fd⟩
      | 'e' :: r => applyExp base fd r
      | 'E' :: r => applyExp base fd r
      | _ => none

/-- `_to_float_safe` from the source: `float(str(x).strip())`, `None` on
failure (decimal and scientific notation; the special forms `inf`/`nan`
do not occur in the data this program ingests). -/
def toFloatSafe (s : Str) : Option PyFloat :=
  match pyStrip s with
  | '+' :: r => parseFloatMag false r
  | '-' :: r => parseFloatMag true r
  | r => parseFloatMag false r

/-! ## Insertion-ordered dictionaries (Python `dict` model) -/

/-- Find the entry whose key equals `k` (Python key lookup). -/
def alFindE {α β : Type} [DecidableEq α] (d : List (α × β)) (k : α) :
    Option (α × β) :=
  d.find? (fun p => p.1 = k)

/-- `d.get(k, dflt)`. -/
def alGetD {α β : Type} [DecidableEq α] (d : List (α × β)) (k : α)
    (dflt : β) : β :=
  match alFindE d k with
  | some p => p.2
  | none => dflt

/-- `d.get(k, [])` for a dict whose values are lists. -/
def alGet {α β : Type} [DecidableEq α] (d : List (α × List β)) (k : α) :
    List β :=
  alGetD d k []

/-- `d.setdefault(k, dflt)` followed by an in-place update of `d[k]` by `f`.
New keys are appended at the end, matching Python dict insertion order. -/
def alUpd {α β : Type} [DecidableEq α] (d : List (α × β)) (k : α) (dflt : β)
    (f : β → β) : List (α × β) :=
  match d with
  | [] => [(k, f dflt)]
  | p :: t => if p.1 = k then (p.1, f p.2) :: t else p :: alUpd t k dflt f

/-! ## The program: helpers shared by the geography loader -/

/-- Split a digit string into consecutive 3-character chunks, a shorter final
chunk being kept whole (the slices `s[i:i+3]` for `i in range(0, len(s), 3)`). -/
def chunks3 : Str → List Str
  | a :: b :: c :: rest => [a, b, c] :: chunks3 rest
  | [] => []
  | r => [r]

/-- `_expand_uhf_code` from the source: trim; empty gives `[]`; a pure digit
string longer than 3 with length a multiple of 3 is split into 3-digit ids;
otherwise the whole string is parsed as one id, yielding `[]` on failure. -/
def expandUhfCode (s : Str) : List Int :=
  match pyStrip s with
  | [] => []
  | t =>
      if pyIsDigit t && decide (3 < t.length) && decide (t.length % 3 = 0) then
        (chunks3 t).map (fun c => Int.ofNat (digitsVal c))
      else
        match toIntSafe t with
        | some v => [v]
        | none => []

/-- The qualifying postal codes of a row's candidate cells, in order, before
deduplication: a cell qualifies when it has length at least 5 and its first
5 characters are digits, and contributes those first 5 characters. -/
def zipCandidates (cells : List Str) : List Str :=
  cells.filterMap (fun z =>
    if decide (5 ≤ z.length) && pyIsDigit (z.take 5) then some (z.take 5)
    else none)

/-- Deduplicate, keeping the first occurrence, via a seen set (the
`seen = set(); [z for z in zips if not (z in seen or seen.add(z))]` idiom). -/
def dedupSeen (seen : List Str) : List Str → List Str
  | [] => []
  | z :: t => if z ∈ seen then dedupSeen seen t else z :: dedupSeen (z :: seen) t

/-- The deduplicated postal codes extracted from one row's candidate cells. -/
def zipsOfRow (cells : List Str) : List Str := dedupSeen [] (zipCandidates cells)

/-! ## The geography loader (`read_uhf`) -/

/-- `(zip_to_uhfs, borough_to_uhfs)`. -/
abbrev GeoState := List (Str × List Int) × List (Str × List Int)

/-- `if u not in l: l.append(u)`. -/
def insertNew (l : List Int) (u : Int) : List Int :=
  if u ∈ l then l else l ++ [u]

/-- Append each id not already present, preserving order. -/
def insertAll (l : List Int) (ids : List Int) : List Int :=
  ids.foldl insertNew l

/-- The block shared by both layouts: record the borough association only
when the borough is non-empty and at least one id was found; record every
postal code unconditionally (`setdefault` first, then append the new ids). -/
def storeRow (st : GeoState) (borough : Str) (ids : List Int)
    (zips : List Str) : GeoState :=
  let bd := if borough ≠ [] ∧ ids ≠ [] then
      alUpd st.2 borough [] (fun v => insertAll v ids)
    else st.2
  let zd := zips.foldl (fun zd z => alUpd zd z [] (fun v => insertAll v ids)) st.1
  (zd, bd)

/-- Whether the first string starts the second (helper for `hasSubStr`). -/
def startsStr : Str → Str → Bool
  | [], _ => true
  | _ :: _, [] => false
  | a :: as, b :: bs => a == b && startsStr as bs

/-- Python's substring test `needle in hay`. -/
def hasSubStr (nd : Str) : Str → Bool
  | [] => nd.isEmpty
  | c :: t => startsStr nd (c :: t) || hasSubStr nd t

/-- The geography keyword test applied to one (lower-cased) header cell. -/
def cellHasKeyword (c : Str) : Bool :=
  hasSubStr (ltr "borough") c || hasSubStr (ltr "boro") c
    || hasSubStr (ltr "zip") c || hasSubStr (ltr "uhf_id") c
    || hasSubStr (ltr "uhf id") c

/-- Header detection: some cell of the first row, lower-cased, contains one
of the keywords. -/
def rowHasKeyword (r : List Str) : Bool :=
  (r.map lowerStr).any cellHasKeyword

/-- `find_col` from the source: index of the first header cell containing one
of the keys, or the default. -/
def findCol (header : List Str) (keys : List Str) (dflt : Nat) : Nat :=
  match header.findIdx? (fun h => keys.any (fun k => hasSubStr k h)) with
  | some i => i
  | none => dflt

/-- One Layout A (header-bearing) data row: skipped when not longer than the
largest located column index; otherwise borough, region-code and postal cells
are read at the located columns. -/
def rowA (ibor iuhf izip : Nat) (st : GeoState) (r : List Str) : GeoState :=
  if r.length ≤ max ibor (max iuhf izip) then st
  else
    storeRow st (normBorough (r.getD ibor [])) (expandUhfCode (r.getD iuhf []))
      (zipsOfRow (r.drop izip))

/-- One Layout B (headerless) row: skipped when shorter than 3 cells;
column 0 is the borough, column 2 the region code, columns 3 onward the
postal candidates (column 1 is an unused marker). -/
def rowB (st : GeoState) (r : List Str) : GeoState :=
  if r.length < 3 then st
  else
    storeRow st (normBorough (r.getD 0 [])) (expandUhfCode (r.getD 2 []))
      (zipsOfRow (r.drop 3))

/-- The row preprocessing of `read_uhf`: keep only rows with some non-blank
cell, and strip every cell. -/
def cleanRows (raw : List (List Str)) : List (List Str) :=
  (raw.filter (fun r => r.any (fun c => !(pyStrip c).isEmpty))).map
    (fun r => r.map pyStrip)

/-- `read_uhf` from the source, taking the raw tokenized rows of the file. -/
def readUhf (raw : List (List Str)) : GeoState :=
  match cleanRows raw with
  | [] => ([], [])
  | r0 :: rest =>
      if rowHasKeyword r0 then
        let header := r0.map lowerStr
        let ibor := findCol header [ltr "borough", ltr "boro"] 0
        let iuhf := findCol header [ltr "uhf", ltr "code", ltr "id"] 1
        let izip := findCol header [ltr "zip"] 2
        rest.foldl (rowA ibor iuhf izip) ([], [])
      else
        (r0 :: rest).foldl rowB ([], [])

/-! ## The measurement loader (`read_pollution`) -/

/-- The measurement tuple `(date_str, uhf_id, uhf_name, value)`. -/
structure Meas where
  date : Str
  uhf : Int
  name : Str
  val : PyFloat
deriving DecidableEq

/-- `(by_uhf, by_date)`. -/
abbrev PolState := List (Int × List Meas) × List (Str × List Meas)

/-- Parse one measurement row: at least 4 cells; cell 0 an integer id,
cell 1 a non-empty trimmed name, cell 2 a non-empty trimmed date, cell 3 a
float; any failure drops the whole row. -/
def parseMeasRow (r : List Str) : Option Meas :=
  if r.length < 4 then none
  else
    match toIntSafe (r.getD 0 []), toFloatSafe (r.getD 3 []) with
    | some uhfId, some v =>
        let nm := pyStrip (r.getD 1 [])
        let dt := pyStrip (r.getD 2 [])
        if nm.isEmpty || dt.isEmpty then none
        else some ⟨dt, uhfId, nm, v⟩
    | _, _ => none

/-- Append a parsed row to both indexes (invalid rows leave the state
unchanged). -/
def stepMeas (st : PolState) (r : List Str) : PolState :=
  match parseMeasRow r with
  | none => st
  | some m =>
      (alUpd st.1 m.uhf [] (fun v => v ++ [m]),
       alUpd st.2 m.date [] (fun v => v ++ [m]))

/-- The header heuristic of `read_pollution`: skip row 0 exactly when the
file is non-empty, row 0 is non-empty and its first cell, stripped, is not a
pure digit string. -/
def startIdx (rows : List (List Str)) : Nat :=
  match rows with
  | [] => 0
  | r0 :: _ =>
      match r0 with
      | [] => 0
      | c0 :: _ => if pyIsDigit (pyStrip c0) then 0 else 1

/-- `read_pollution` from the source, taking the raw tokenized rows. -/
def readPollution (rows : List (List Str)) : PolState :=
  (rows.drop (startIdx rows)).foldl stepMeas ([], [])

/-! ## File-level wrappers: missing-file handling

The `Bool` component records whether the "Could not find …" diagnostic was
printed; a missing file (`none`) yields the diagnostic and two empty
mappings, and no exception is possible (the functions are total). -/

/-- `read_pollution` including the existence check of `AIR_QUALITY_FILE`. -/
def readPollutionFile (file : Option (List (List Str))) : Bool × PolState :=
  match file with
  | none => (true, ([], []))
  | some rows => (false, readPollution rows)

/-- `read_uhf` including the existence check of `UHF_FILE`. -/
def readUhfFile (file : Option (List (List Str))) : Bool × GeoState :=
  match file with
  | none => (true, ([], []))
  | some rows => (false, readUhf rows)

/-! ## The query layer -/

/-- `search_by_zip`: look the zip up, then concatenate the measurement list
of each of its region ids, in order. -/
def searchByZip (z : Str) (zd : List (Str × List Int))
    (ud : List (Int × List Meas)) : List Meas :=
  (alGet zd z).foldl (fun out u => out ++ alGet ud u) []

/-- `search_by_uhf`: parse the id; unparseable input yields `[]`. -/
def searchByUhf (s : Str) (ud : List (Int × List Meas)) : List Meas :=
  match toIntSafe s with
  | some u => alGet ud u
  | none => []

/-- `search_by_borough`: normalize the name, look it up, concatenate. -/
def searchByBorough (b : Str) (bd : List (Str × List Int))
    (ud : List (Int × List Meas)) : List Meas :=
  (alGet bd (normBorough b)).foldl (fun out u => out ++ alGet ud u) []

/-- `search_by_date`: trim the query and look it up. -/
def searchByDate (d : Str) (dd : List (Str × List Meas)) : List Meas :=
  alGet dd (pyStrip d)

/-! ## Lemmas about the dictionary model -/

theorem alFindE_key {α β : Type} [DecidableEq α] {d : List (α × β)} {k : α}
    {q : α × β} (h : alFindE d k = some q) : q.1 = k := by
  have := List.find?_some h
  exact of_decide_eq_true this

theorem alFindE_mem {α β : Type} [DecidableEq α] {d : List (α × β)} {k : α}
    {q : α × β} (h : alFindE d k = some q) : q ∈ d :=
  List.mem_of_find?_eq_some h

theorem alFindE_upd {α β : Type} [DecidableEq α] (d : List (α × β)) (k : α)
    (dflt : β) (f : β → β) (k' : α) :
    alFindE (alUpd d k dflt f) k' =
      if k' = k then some (k, f (alGetD d k dflt)) else alFindE d k' := by
  induction d with
  | nil =>
      by_cases h : k' = k
      · subst h; simp [alFindE, alUpd, alGetD, List.find?]
      · have h3 : ¬k = k' := fun h' => h h'.symm
        simp [alFindE, alUpd, alGetD, List.find?, h, h3]
  | cons p t ih =>
      by_cases hp : p.1 = k
      · by_cases h : k' = k
        · subst h
          simp [alFindE, alUpd, alGetD, List.find?, hp]
        · have h3 : ¬k = k' := fun h' => h h'.symm
          simp [alFindE, alUpd, alGetD, List.find?, hp, h, h3]
      · by_cases h : k' = k
        · subst h
          simp only [alUpd, if_neg hp, alFindE, List.find?_cons,
            decide_eq_false hp, cond_false] at ih ⊢
          rw [if_pos trivial] at ih ⊢
          rw [show alGetD (p :: t) k' dflt = alGetD t k' dflt from by
            simp [alGetD, alFindE, List.find?_cons, decide_eq_false hp]]
          exact ih
        · by_cases hq : p.1 = k'
          · simp [alFindE, alUpd, alGetD, List.find?, hp, hq, h]
          · simp only [alUpd, if_neg hp, alFindE, List.find?_cons,
              decide_eq_false hq, cond_false, if_neg h] at ih ⊢
            exact ih

theorem alGetD_upd {α β : Type} [DecidableEq α] (d : List (α × β)) (k : α)
    (dflt : β) (f : β → β) (k' : α) (dflt' : β) :
    alGetD (alUpd d k dflt f) k' dflt' =
      if k' = k then f (alGetD d k dflt) else alGetD d k' dflt' := by
  by_cases h : k' = k
  · simp [alGetD, alFindE_upd, h]
  · simp [alGetD, alFindE_upd, h]

theorem alGet_upd {α β : Type} [DecidableEq α] (d : List (α × List β)) (k : α)
    (f : List β → List β) (k' : α) :
    alGet (alUpd d k [] f) k' = if k' = k then f (alGet d k) else alGet d k' :=
  alGetD_upd d k [] f k' []

theorem mem_alUpd_cases {α β : Type} [DecidableEq α] {d : List (α × β)}
    {k : α} {dflt : β} {f : β → β} {q : α × β} (h : q ∈ alUpd d k dflt f) :
    q ∈ d ∨ (∃ p ∈ d, p.1 = k ∧ q = (k, f p.2)) ∨ q = (k, f dflt) := by
  induction d with
  | nil =>
      simp only [alUpd, List.mem_singleton] at h
      exact Or.inr (Or.inr h)
  | cons p t ih =>
      by_cases hp : p.1 = k
      · rw [alUpd, if_pos hp] at h
        rcases List.mem_cons.mp h with h1 | h1
        · exact Or.inr (Or.inl ⟨p, List.mem_cons_self p t, hp, by rw [h1, hp]⟩)
        · exact Or.inl (List.mem_cons_of_mem p h1)
      · rw [alUpd, if_neg hp] at h
        rcases List.mem_cons.mp h with h1 | h1
        · exact Or.inl (h1 ▸ List.mem_cons_self p t)
        · rcases ih h1 with h2 | ⟨p', hp', hk', hq⟩ | h2
          · exact Or.inl (List.mem_cons_of_mem p h2)
          · exact Or.inr (Or.inl ⟨p', List.mem_cons_of_mem p hp', hk', hq⟩)
          · exact Or.inr (Or.inr h2)

theorem mem_keys_alUpd {α β : Type} [DecidableEq α] {d : List (α × β)}
    {k : α} {dflt : β} {f : β → β} {x : α}
    (h : x ∈ (alUpd d k dflt f).map Prod.fst) :
    x ∈ d.map Prod.fst ∨ x = k := by
  rcases List.mem_map.mp h with ⟨q, hq, hx⟩
  rcases mem_alUpd_cases hq with h1 | ⟨p, hp, _, hq'⟩ | h1
  · exact Or.inl (List.mem_map.mpr ⟨q, h1, hx⟩)
  · exact Or.inr (by rw [← hx, hq'])
  · exact Or.inr (by rw [← hx, h1])

theorem nodup_keys_alUpd {α β : Type} [DecidableEq α] {d : List (α × β)}
    (k : α) (dflt : β) (f : β → β) (h : (d.map Prod.fst).Nodup) :
    ((alUpd d k dflt f).map Prod.fst).Nodup := by
  induction d with
  | nil => simp [alUpd]
  | cons p t ih =>
      rw [List.map_cons, List.nodup_cons] at h
      by_cases hp : p.1 = k
      · rw [alUpd, if_pos hp, List.map_cons, List.nodup_cons]
        exact ⟨hp ▸ h.1, h.2⟩
      · rw [alUpd, if_neg hp, List.map_cons, List.nodup_cons]
        refine ⟨fun hmem => ?_, ih h.2⟩
        rcases mem_keys_alUpd hmem with h1 | h1
        · exact h.1 h1
        · exact hp h1

theorem alFindE_of_mem {α β : Type} [DecidableEq α] {d : List (α × β)}
    {q : α × β} (hnd : (d.map Prod.fst).Nodup) (h : q ∈ d) :
    alFindE d q.1 = some q := by
  induction d with
  | nil => simp at h
  | cons p t ih =>
      rw [List.map_cons, List.nodup_cons] at hnd
      rcases List.mem_cons.mp h with h1 | h1
      · subst h1
        simp [alFindE, List.find?_cons]
      · have hne : ¬p.1 = q.1 := by
          intro h'
          exact hnd.1 (h' ▸ List.mem_map.mpr ⟨q, h1, rfl⟩)
        simp only [alFindE, List.find?_cons, decide_eq_false hne, cond_false]
        exact ih hnd.2 h1

/-! ## Characterization of the measurement indexes -/

theorem polFold_get (l : List (List Str)) :
    ∀ st : PolState,
      (∀ uhfId : Int,
        alGet (l.foldl stepMeas st).1 uhfId =
          alGet st.1 uhfId ++
            (l.filterMap parseMeasRow).filter (fun m => m.uhf = uhfId)) ∧
      (∀ dt : Str,
        alGet (l.foldl stepMeas st).2 dt =
          alGet st.2 dt ++
            (l.filterMap parseMeasRow).filter (fun m => m.date = dt)) := by
  induction l with
  | nil => intro st; simp
  | cons r t ih =>
      intro st
      rw [List.foldl_cons]
      cases hr : parseMeasRow r with
      | none =>
          have hst : stepMeas st r = st := by rw [stepMeas, hr]
          rw [hst]
          constructor
          · intro uhfId
            rw [(ih st).1 uhfId, List.filterMap_cons, hr]
          · intro dt
            rw [(ih st).2 dt, List.filterMap_cons, hr]
      | some m =>
          have hst : stepMeas st r =
              (alUpd st.1 m.uhf [] (fun v => v ++ [m]),
               alUpd st.2 m.date [] (fun v => v ++ [m])) := by
            rw [stepMeas, hr]
          rw [hst]
          constructor
          · intro uhfId
            rw [(ih _).1 uhfId]
            show alGet (alUpd st.1 m.uhf [] (fun v => v ++ [m])) uhfId ++ _ = _
            rw [alGet_upd, List.filterMap_cons, hr, List.filter_cons]
            by_cases h : uhfId = m.uhf
            · rw [if_pos h, if_pos (by simp [h]), h, List.append_assoc]
              rfl
            · rw [if_neg h, if_neg (by
                simp only [decide_eq_true_eq]
                exact fun h' => h h'.symm)]
          · intro dt
            rw [(ih _).2 dt]
            show alGet (alUpd st.2 m.date [] (fun v => v ++ [m])) dt ++ _ = _
            rw [alGet_upd, List.filterMap_cons, hr, List.filter_cons]
            by_cases h : dt = m.date
            · rw [if_pos h, if_pos (by simp [h]), h, List.append_assoc]
              rfl
            · rw [if_neg h, if_neg (by
                simp only [decide_eq_true_eq]
                exact fun h' => h h'.symm)]

/-! ## Lemmas about stripping -/

theorem lstrip_length_le (s : Str) : (lstrip s).length ≤ s.length := by
  induction s with
  | nil => simp [lstrip]
  | cons c cs ih =>
      by_cases h : isSpaceA c
      · rw [lstrip, if_pos h]
        exact ih.trans (Nat.le_succ _)
      · rw [lstrip, if_neg h]

theorem lstrip_idem (s : Str) : lstrip (lstrip s) = lstrip s := by
  induction s with
  | nil => rfl
  | cons c cs ih =>
      by_cases h : isSpaceA c
      · rw [lstrip, if_pos h, ih]
      · rw [lstrip, if_neg h, lstrip, if_neg h]

theorem lstrip_fix_of_head {s : Str}
    (h : s = [] ∨ ∃ c cs, s = c :: cs ∧ isSpaceA c = false) : lstrip s = s := by
  rcases h with h | ⟨c, cs, rfl, hc⟩
  · rw [h]; rfl
  · rw [lstrip, if_neg (by simp [hc])]

theorem lstrip_fix_head {s : Str} (h : lstrip s = s) :
    s = [] ∨ ∃ c cs, s = c :: cs ∧ isSpaceA c = false := by
  cases s with
  | nil => exact Or.inl rfl
  | cons c cs =>
      refine Or.inr ⟨c, cs, rfl, ?_⟩
      by_contra hc
      have hc' : isSpaceA c = true := by simpa using hc
      rw [lstrip, if_pos hc'] at h
      have hlen := lstrip_length_le cs
      rw [h] at hlen
      simp [List.length_cons] at hlen

theorem lstrip_fix_of_length {s : Str}
    (h : (lstrip s).length = s.length) : lstrip s = s := by
  induction s with
  | nil => rfl
  | cons c cs ih =>
      by_cases hc : isSpaceA c
      · exfalso
        rw [lstrip, if_pos hc] at h
        have := lstrip_length_le cs
        rw [List.length_cons] at h
        omega
      · rw [lstrip, if_neg hc]

theorem lstrip_suffix (s : Str) : ∃ pre, s = pre ++ lstrip s := by
  induction s with
  | nil => exact ⟨[], rfl⟩
  | cons c cs ih =>
      by_cases h : isSpaceA c
      · obtain ⟨pre, hp⟩ := ih
        refine ⟨c :: pre, ?_⟩
        rw [lstrip, if_pos h, List.cons_append, ← hp]
      · exact ⟨[], by rw [lstrip, if_neg h]; rfl⟩

theorem pyStrip_fix_iff (s : Str) :
    pyStrip s = s ↔ lstrip s = s ∧ lstrip s.reverse = s.reverse := by
  constructor
  · intro h
    rw [pyStrip] at h
    have l1 := lstrip_length_le ((lstrip s.reverse).reverse)
    have l2 := lstrip_length_le s.reverse
    have e1 : (lstrip ((lstrip s.reverse).reverse)).length = s.length := by
      rw [h]
    have e2 : ((lstrip s.reverse).reverse).length = (lstrip s.reverse).length :=
      List.length_reverse _
    have e3 : s.reverse.length = s.length := List.length_reverse _
    have hXfix : lstrip ((lstrip s.reverse).reverse) =
        (lstrip s.reverse).reverse := lstrip_fix_of_length (by omega)
    have hYfix : lstrip s.reverse = s.reverse :=
      lstrip_fix_of_length (by omega)
    refine ⟨?_, hYfix⟩
    have hX : (lstrip s.reverse).reverse = s := by rw [← hXfix]; exact h
    rw [← hX]
    exact hXfix
  · rintro ⟨h1, h2⟩
    rw [pyStrip, h2, List.reverse_reverse, h1]

theorem pyStrip_idem (s : Str) : pyStrip (pyStrip s) = pyStrip s := by
  apply (pyStrip_fix_iff _).mpr
  constructor
  · rw [pyStrip]
    exact lstrip_idem _
  · have hY : lstrip (lstrip s.reverse) = lstrip s.reverse := lstrip_idem _
    obtain ⟨pre, hpre⟩ := lstrip_suffix ((lstrip s.reverse).reverse)
    have hYdec : lstrip s.reverse =
        (lstrip ((lstrip s.reverse).reverse)).reverse ++ pre.reverse := by
      calc lstrip s.reverse
          = ((lstrip s.reverse).reverse).reverse := (List.reverse_reverse _).symm
        _ = (pre ++ lstrip ((lstrip s.reverse).reverse)).reverse := by
              rw [← hpre]
        _ = (lstrip ((lstrip s.reverse).reverse)).reverse ++ pre.reverse :=
              List.reverse_append _ _
    rw [pyStrip]
    apply lstrip_fix_of_head
    cases hE : (lstrip ((lstrip s.reverse).reverse)).reverse with
    | nil => exact Or.inl rfl
    | cons c w =>
        refine Or.inr ⟨c, w, rfl, ?_⟩
        rw [hE] at hYdec
        rcases lstrip_fix_head hY with h0 | ⟨c', cs', hY2, hc'⟩
        · rw [h0] at hYdec
          simp at hYdec
        · have hcc := hY2.symm.trans hYdec
          simp only [List.cons_append] at hcc
          injection hcc with hc1 hc2
          rw [← hc1]
          exact hc'

/-! ## Lemmas about ASCII case conversion and title-casing -/

theorem isSpaceA_toLowA (c : Char) : isSpaceA (toLowA c) = isSpaceA c := by
  cases h : caseTable.find? (fun p => p.1 = c) with
  | none =>
      have hval : toLowA c = c := by simp only [toLowA, h]
      rw [hval]
  | some p =>
      have hval : toLowA c = p.2 := by simp only [toLowA, h]
      have hp : p ∈ caseTable := List.mem_of_find?_eq_some h
      have hc : p.1 = c := by simpa using List.find?_some h
      have h1 : isSpaceA p.2 = false := by
        have hall : caseTable.all (fun q => !isSpaceA q.2) = true := by decide
        simpa using List.all_eq_true.mp hall p hp
      have h2 : isSpaceA p.1 = false := by
        have hall : caseTable.all (fun q => !isSpaceA q.1) = true := by decide
        simpa using List.all_eq_true.mp hall p hp
      rw [hval, h1, ← hc, h2]

theorem isSpaceA_toUppA (c : Char) : isSpaceA (toUppA c) = isSpaceA c := by
  cases h : caseTable.find? (fun p => p.2 = c) with
  | none =>
      have hval : toUppA c = c := by simp only [toUppA, h]
      rw [hval]
  | some p =>
      have hval : toUppA c = p.1 := by simp only [toUppA, h]
      have hp : p ∈ caseTable := List.mem_of_find?_eq_some h
      have hc : p.2 = c := by simpa using List.find?_some h
      have h1 : isSpaceA p.1 = false := by
        have hall : caseTable.all (fun q => !isSpaceA q.1) = true := by decide
        simpa using List.all_eq_true.mp hall p hp
      have h2 : isSpaceA p.2 = false := by
        have hall : caseTable.all (fun q => !isSpaceA q.2) = true := by decide
        simpa using List.all_eq_true.mp hall p hp
      rw [hval, h1, ← hc, h2]

theorem isAlphaA_toLowA (c : Char) : isAlphaA (toLowA c) = isAlphaA c := by
  cases h : caseTable.find? (fun p => p.1 = c) with
  | none =>
      have hval : toLowA c = c := by simp only [toLowA, h]
      rw [hval]
  | some p =>
      have hval : toLowA c = p.2 := by simp only [toLowA, h]
      have hp : p ∈ caseTable := List.mem_of_find?_eq_some h
      have hc : p.1 = c := by simpa using List.find?_some h
      have h1 : isAlphaA p.2 = true := by
        have hall : caseTable.all (fun q => isAlphaA q.2) = true := by decide
        simpa using List.all_eq_true.mp hall p hp
      have h2 : isAlphaA p.1 = true := by
        have hall : caseTable.all (fun q => isAlphaA q.1) = true := by decide
        simpa using List.all_eq_true.mp hall p hp
      rw [hval, h1, ← hc, h2]

theorem isAlphaA_toUppA (c : Char) : isAlphaA (toUppA c) = isAlphaA c := by
  cases h : caseTable.find? (fun p => p.2 = c) with
  | none =>
      have hval : toUppA c = c := by simp only [toUppA, h]
      rw [hval]
  | some p =>
      have hval : toUppA c = p.1 := by simp only [toUppA, h]
      have hp : p ∈ caseTable := List.mem_of_find?_eq_some h
      have hc : p.2 = c := by simpa using List.find?_some h
      have h1 : isAlphaA p.1 = true := by
        have hall : caseTable.all (fun q => isAlphaA q.1) = true := by decide
        simpa using List.all_eq_true.mp hall p hp
      have h2 : isAlphaA p.2 = true := by
        have hall : caseTable.all (fun q => isAlphaA q.2) = true := by decide
        simpa using List.all_eq_true.mp hall p hp
      rw [hval, h1, ← hc, h2]

theorem toLowA_toLowA (c : Char) : toLowA (toLowA c) = toLowA c := by
  cases h : caseTable.find? (fun p => p.1 = c) with
  | none =>
      have hval : toLowA c = c := by simp only [toLowA, h]
      rw [hval]
      exact hval
  | some p =>
      have hval : toLowA c = p.2 := by simp only [toLowA, h]
      have hp : p ∈ caseTable := List.mem_of_find?_eq_some h
      have hnone : caseTable.find? (fun q => q.1 = p.2) = none := by
        rw [List.find?_eq_none]
        intro q hq
        have hall : caseTable.all
            (fun e => caseTable.all (fun q => !(decide (q.1 = e.2)))) = true := by
          decide
        simpa using List.all_eq_true.mp (List.all_eq_true.mp hall p hp) q hq
      rw [hval]
      simp only [toLowA, hnone]

theorem toUppA_toUppA (c : Char) : toUppA (toUppA c) = toUppA c := by
  cases h : caseTable.find? (fun p => p.2 = c) with
  | none =>
      have hval : toUppA c = c := by simp only [toUppA, h]
      rw [hval]
      exact hval
  | some p =>
      have hval : toUppA c = p.1 := by simp only [toUppA, h]
      have hp : p ∈ caseTable := List.mem_of_find?_eq_some h
      have hnone : caseTable.find? (fun q => q.2 = p.1) = none := by
        rw [List.find?_eq_none]
        intro q hq
        have hall : caseTable.all
            (fun e => caseTable.all (fun q => !(decide (q.2 = e.1)))) = true := by
          decide
        simpa using List.all_eq_true.mp (List.all_eq_true.mp hall p hp) q hq
      rw [hval]
      simp only [toUppA, hnone]

theorem titleAux_map_isSpace (s : Str) :
    ∀ b, (titleAux b s).map isSpaceA = s.map isSpaceA := by
  induction s with
  | nil => intro b; rfl
  | cons c cs ih =>
      intro b
      rw [titleAux, List.map_cons, List.map_cons, ih]
      cases b
      · rw [if_neg (by simp), isSpaceA_toUppA]
      · rw [if_pos rfl, isSpaceA_toLowA]

theorem titleAux_idem (s : Str) :
    ∀ b, titleAux b (titleAux b s) = titleAux b s := by
  induction s with
  | nil => intro b; rfl
  | cons c cs ih =>
      intro b
      cases b
      · rw [titleAux, if_neg (by simp), titleAux, if_neg (by simp),
          toUppA_toUppA, isAlphaA_toUppA, ih]
      · rw [titleAux, if_pos rfl, titleAux, if_pos rfl,
          toLowA_toLowA, isAlphaA_toLowA, ih]

theorem lstrip_fix_of_profile {t t' : Str}
    (hp : t'.map isSpaceA = t.map isSpaceA) (h : lstrip t = t) :
    lstrip t' = t' := by
  apply lstrip_fix_of_head
  cases t' with
  | nil => exact Or.inl rfl
  | cons c' cs' =>
      refine Or.inr ⟨c', cs', rfl, ?_⟩
      cases t with
      | nil => simp at hp
      | cons c cs =>
          rcases lstrip_fix_head h with h0 | ⟨c2, cs2, he, hc2⟩
          · exact absurd h0 (List.cons_ne_nil c cs)
          · injection he with he1 he2
            rw [List.map_cons, List.map_cons] at hp
            injection hp with hp1 hp2
            rw [hp1, he1]
            exact hc2

theorem pyStrip_fix_of_profile {t t' : Str}
    (hp : t'.map isSpaceA = t.map isSpaceA) (h : pyStrip t = t) :
    pyStrip t' = t' := by
  obtain ⟨h1, h2⟩ := (pyStrip_fix_iff t).mp h
  apply (pyStrip_fix_iff t').mpr
  refine ⟨lstrip_fix_of_profile hp h1, ?_⟩
  apply lstrip_fix_of_profile ?_ h2
  rw [List.map_reverse, List.map_reverse, hp]

/-- `_norm_borough` is idempotent: normalized names are fixed points. -/
theorem normBorough_idem (s : Str) :
    normBorough (normBorough s) = normBorough s := by
  rw [normBorough, normBorough, pyTitle, pyTitle]
  have hfix : pyStrip (titleAux false (pyStrip s)) = titleAux false (pyStrip s) :=
    pyStrip_fix_of_profile (titleAux_map_isSpace _ false) (pyStrip_idem s)
  rw [hfix, titleAux_idem]

/-! ## Invariants of the geography indexes -/

theorem insertNew_ne_nil (l : List Int) (u : Int) : insertNew l u ≠ [] := by
  rw [insertNew]
  by_cases h : u ∈ l
  · rw [if_pos h]
    exact List.ne_nil_of_mem h
  · rw [if_neg h]
    simp

theorem foldl_insertNew_ne_nil {l : List Int} (ids : List Int) (h : l ≠ []) :
    ids.foldl insertNew l ≠ [] := by
  induction ids generalizing l with
  | nil => exact h
  | cons u t ih =>
      rw [List.foldl_cons]
      exact ih (insertNew_ne_nil l u)

theorem insertAll_ne_nil (l : List Int) {ids : List Int} (h : ids ≠ []) :
    insertAll l ids ≠ [] := by
  cases ids with
  | nil => exact absurd rfl h
  | cons u t =>
      rw [insertAll, List.foldl_cons]
      exact foldl_insertNew_ne_nil t (insertNew_ne_nil l u)

/-- The invariant maintained on the borough index while `read_uhf` runs:
keys are non-empty normalized names, values are non-empty, keys are unique. -/
def BdInv (st : GeoState) : Prop :=
  (∀ q ∈ st.2, q.1 ≠ [] ∧ normBorough q.1 = q.1 ∧ q.2 ≠ []) ∧
    (st.2.map Prod.fst).Nodup

theorem storeRow_bdInv {st : GeoState} (s0 : Str) (ids : List Int)
    (zips : List Str) (h : BdInv st) :
    BdInv (storeRow st (normBorough s0) ids zips) := by
  rw [storeRow]
  by_cases hg : normBorough s0 ≠ [] ∧ ids ≠ []
  · rw [if_pos hg]
    constructor
    · intro q hq
      rcases mem_alUpd_cases hq with h1 | ⟨p, hp, _, hq'⟩ | h1
      · exact h.1 q h1
      · rw [hq']
        exact ⟨hg.1, normBorough_idem s0, insertAll_ne_nil _ hg.2⟩
      · rw [h1]
        exact ⟨hg.1, normBorough_idem s0, insertAll_ne_nil _ hg.2⟩
    · exact nodup_keys_alUpd _ _ _ h.2
  · rw [if_neg hg]
    exact h

theorem rowA_bdInv (ibor iuhf izip : Nat) (st : GeoState) (r : List Str)
    (h : BdInv st) : BdInv (rowA ibor iuhf izip st r) := by
  rw [rowA]
  by_cases hl : r.length ≤ max ibor (max iuhf izip)
  · rw [if_pos hl]; exact h
  · rw [if_neg hl]
    exact storeRow_bdInv _ _ _ h

theorem rowB_bdInv (st : GeoState) (r : List Str) (h : BdInv st) :
    BdInv (rowB st r) := by
  rw [rowB]
  by_cases hl : r.length < 3
  · rw [if_pos hl]; exact h
  · rw [if_neg hl]
    exact storeRow_bdInv _ _ _ h

theorem foldl_inv {σ ρ : Type} (P : σ → Prop) (step : σ → ρ → σ)
    (hstep : ∀ s r, P s → P (step s r)) :
    ∀ (l : List ρ) (s : σ), P s → P (l.foldl step s) := by
  intro l
  induction l with
  | nil => intro s h; exact h
  | cons r t ih =>
      intro s h
      rw [List.foldl_cons]
      exact ih _ (hstep s r h)

theorem readUhf_bdInv (raw : List (List Str)) : BdInv (readUhf raw) := by
  have hinit : BdInv (([], []) : GeoState) := by
    constructor
    · intro q hq; simp at hq
    · simp
  rw [readUhf]
  split
  · exact hinit
  · split
    · exact foldl_inv BdInv _ (rowA_bdInv _ _ _) _ ([], []) hinit
    · exact foldl_inv BdInv _ rowB_bdInv _ ([], []) hinit

/-! ## Deduplication with a seen set -/

theorem dedupSeen_eq_foldl (l : List Str) :
    ∀ seen acc : List Str, (∀ z, z ∈ seen ↔ z ∈ acc) →
      acc ++ dedupSeen seen l =
        l.foldl (fun acc z => if z ∈ acc then acc else acc ++ [z]) acc := by
  induction l with
  | nil => intro seen acc h; simp [dedupSeen]
  | cons z t ih =>
      intro seen acc h
      rw [dedupSeen, List.foldl_cons]
      by_cases hz : z ∈ seen
      · rw [if_pos hz, if_pos ((h z).mp hz)]
        exact ih seen acc h
      · rw [if_neg hz, if_neg (fun hc => hz ((h z).mpr hc))]
        rw [show acc ++ z :: dedupSeen (z :: seen) t =
          (acc ++ [z]) ++ dedupSeen (z :: seen) t by simp]
        exact ih (z :: seen) (acc ++ [z]) (by
          intro w
          simp only [List.mem_cons, List.mem_append, List.mem_singleton, h w]
          tauto)

theorem mem_dedupSeen {z : Str} (l : List Str) :
    ∀ seen : List Str, z ∈ dedupSeen seen l ↔ z ∈ l ∧ z ∉ seen := by
  induction l with
  | nil => intro seen; simp [dedupSeen]
  | cons w t ih =>
      intro seen
      by_cases hw : w ∈ seen
      · rw [dedupSeen, if_pos hw, ih]
        constructor
        · rintro ⟨hz, hs⟩
          exact ⟨List.mem_cons_of_mem _ hz, hs⟩
        · rintro ⟨hz, hs⟩
          rcases List.mem_cons.mp hz with rfl | hz
          · exact absurd hw hs
          · exact ⟨hz, hs⟩
      · rw [dedupSeen, if_neg hw]
        constructor
        · intro hz
          rcases List.mem_cons.mp hz with rfl | hz
          · exact ⟨List.mem_cons_self _ _, hw⟩
          · obtain ⟨h1, h2⟩ := (ih (w :: seen)).mp hz
            exact ⟨List.mem_cons_of_mem _ h1,
              fun hs => h2 (List.mem_cons_of_mem _ hs)⟩
        · rintro ⟨hz, hs⟩
          rcases List.mem_cons.mp hz with rfl | hz
          · exact List.mem_cons_self _ _
          · by_cases hzw : z = w
            · subst hzw
              exact List.mem_cons_self _ _
            · refine List.mem_cons_of_mem _ ((ih (w :: seen)).mpr ⟨hz, ?_⟩)
              intro hmem
              rcases List.mem_cons.mp hmem with h1 | h1
              · exact hzw h1
              · exact hs h1

theorem dedupSeen_nodup (l : List Str) :
    ∀ seen : List Str, (dedupSeen seen l).Nodup := by
  induction l with
  | nil => intro seen; simp [dedupSeen]
  | cons w t ih =>
      intro seen
      by_cases hw : w ∈ seen
      · rw [dedupSeen, if_pos hw]
        exact ih seen
      · rw [dedupSeen, if_neg hw, List.nodup_cons]
        refine ⟨fun hmem => ?_, ih (w :: seen)⟩
        obtain ⟨-, h2⟩ := (mem_dedupSeen t (w :: seen)).mp hmem
        exact h2 (List.mem_cons_self _ _)

theorem mem_zipCandidates {cells : List Str} {z : Str} :
    z ∈ zipCandidates cells ↔
      ∃ c ∈ cells, 5 ≤ c.length ∧ pyIsDigit (c.take 5) = true ∧ z = c.take 5 := by
  rw [zipCandidates, List.mem_filterMap]
  constructor
  · rintro ⟨c, hc, hz⟩
    by_cases h : (decide (5 ≤ c.length) && pyIsDigit (c.take 5)) = true
    · rw [if_pos h] at hz
      injection hz with hz
      rw [Bool.and_eq_true] at h
      exact ⟨c, hc, of_decide_eq_true h.1, h.2, hz.symm⟩
    · rw [if_neg h] at hz
      exact absurd hz (by simp)
  · rintro ⟨c, hc, h1, h2, rfl⟩
    refine ⟨c, hc, ?_⟩
    rw [if_pos (by rw [Bool.and_eq_true, decide_eq_true_eq]; exact ⟨h1, h2⟩)]

/-! ## Substring containment -/

theorem startsStr_iff {nd : Str} : ∀ {h : Str},
    startsStr nd h = true ↔ ∃ q, h = nd ++ q := by
  induction nd with
  | nil =>
      intro h
      simp [startsStr]
  | cons a as ih =>
      intro h
      cases h with
      | nil =>
          simp [startsStr]
      | cons b bs =>
          rw [startsStr, Bool.and_eq_true, beq_iff_eq]
          constructor
          · rintro ⟨rfl, hs⟩
            obtain ⟨q, rfl⟩ := ih.mp hs
            exact ⟨q, rfl⟩
          · rintro ⟨q, hq⟩
            injection hq with h1 h2
            exact ⟨h1.symm, ih.mpr ⟨q, h2⟩⟩

theorem hasSubStr_iff {nd : Str} : ∀ {h : Str},
    hasSubStr nd h = true ↔ ∃ p q, h = p ++ nd ++ q := by
  intro h
  induction h with
  | nil =>
      rw [hasSubStr]
      constructor
      · intro he
        have : nd = [] := by simpa [List.isEmpty_iff] using he
        exact ⟨[], [], by simp [this]⟩
      · rintro ⟨p, q, hq⟩
        have h3 : p = [] ∧ nd = [] ∧ q = [] := by simpa using hq.symm
        rw [h3.2.1]
        rfl
  | cons c t ih =>
      rw [hasSubStr, Bool.or_eq_true, startsStr_iff, ih]
      constructor
      · rintro (⟨q, hq⟩ | ⟨p, q, hq⟩)
        · exact ⟨[], q, by simpa using hq⟩
        · exact ⟨c :: p, q, by rw [List.cons_append, List.cons_append, ← hq]⟩
      · rintro ⟨p, q, hq⟩
        cases p with
        | nil =>
            left
            exact ⟨q, by simpa using hq⟩
        | cons x xs =>
            right
            rw [List.cons_append, List.cons_append] at hq
            injection hq with h1 h2
            exact ⟨xs, q, h2⟩

/-! ## The composite-code expansion rule, as the specification words it -/

/-- The expansion rule exactly as the specification words it, used as the
comparison point for `expandUhfCode`: trim; if the result is entirely digits,
longer than 3 characters and of length a multiple of 3, parse the consecutive
3-character chunks; otherwise parse the whole trimmed string as one integer,
yielding `[]` when it does not parse. -/
def expandSpecRule (s : Str) : List Int :=
  let t := pyStrip s
  if t.all isDigitCh && decide (3 < t.length) && decide (t.length % 3 = 0) then
    (chunks3 t).map (fun c => Int.ofNat (digitsVal c))
  else
    match parseIntCore t with
    | some v => [v]
    | none => []

theorem expandUhfCode_eq_spec (s : Str) : expandUhfCode s = expandSpecRule s := by
  cases hps : pyStrip s with
  | nil =>
      simp only [expandUhfCode, expandSpecRule, hps]
      simp [parseIntCore]
  | cons c cs =>
      have hti : toIntSafe (c :: cs) = parseIntCore (c :: cs) := by
        rw [toIntSafe, ← hps, pyStrip_idem, hps]
      simp only [expandUhfCode, expandSpecRule, hps]
      rw [show pyIsDigit (c :: cs) = (c :: cs).all isDigitCh by
        simp [pyIsDigit], hti]

/-! ## The header-keyword test, characterized -/

/-- The five header keywords of the geography layout detection. -/
def geoKeywords : List Str :=
  [ltr "borough", ltr "boro", ltr "zip", ltr "uhf_id", ltr "uhf id"]

theorem rowHasKeyword_iff (r : List Str) :
    rowHasKeyword r = true ↔
      ∃ c ∈ r, ∃ kw ∈ geoKeywords, ∃ p q, lowerStr c = p ++ kw ++ q := by
  rw [rowHasKeyword, List.any_eq_true]
  constructor
  · rintro ⟨lc, hlc, hkw⟩
    obtain ⟨c, hc, rfl⟩ := List.mem_map.mp hlc
    rw [cellHasKeyword] at hkw
    simp only [Bool.or_eq_true] at hkw
    rcases hkw with ((((h | h) | h) | h) | h)
    · exact ⟨c, hc, ltr "borough", by simp [geoKeywords], hasSubStr_iff.mp h⟩
    · exact ⟨c, hc, ltr "boro", by simp [geoKeywords], hasSubStr_iff.mp h⟩
    · exact ⟨c, hc, ltr "zip", by simp [geoKeywords], hasSubStr_iff.mp h⟩
    · exact ⟨c, hc, ltr "uhf_id", by simp [geoKeywords], hasSubStr_iff.mp h⟩
    · exact ⟨c, hc, ltr "uhf id", by simp [geoKeywords], hasSubStr_iff.mp h⟩
  · rintro ⟨c, hc, kw, hkw, p, q, hpq⟩
    refine ⟨lowerStr c, List.mem_map.mpr ⟨c, hc, rfl⟩, ?_⟩
    rw [cellHasKeyword]
    simp only [Bool.or_eq_true]
    have hs : hasSubStr kw (lowerStr c) = true := hasSubStr_iff.mpr ⟨p, q, hpq⟩
    simp only [geoKeywords, List.mem_cons, List.mem_singleton] at hkw
    rcases hkw with rfl | rfl | rfl | rfl | (rfl | hF)
    · exact Or.inl (Or.inl (Or.inl (Or.inl hs)))
    · exact Or.inl (Or.inl (Or.inl (Or.inr hs)))
    · exact Or.inl (Or.inl (Or.inr hs))
    · exact Or.inl (Or.inr hs)
    · exact Or.inr hs
    · simp at hF

/-! ## The claims -/

/-- C1 (counterexample): as stated, the claim is false.  On the single
Layout B row `Brooklyn,UHF42,xyz,11232` the code cell `xyz` yields no region
ids, yet `read_uhf` still executes `zip_to_uhfs.setdefault(z, [])` for the
qualifying postal code, so the key `"11232"` is created mapped to the empty
list. -/
theorem claim_C1_counterexample :
    alFindE (readUhf [[ltr "Brooklyn", ltr "UHF42", ltr "xyz", ltr "11232"]]).1
      (ltr "11232") = some (ltr "11232", []) := by
  decide

/-- C1 (amended): the non-empty-value invariant holds for the borough index:
`borough_to_uhfs` only ever creates a key under the guard
`if borough and uhf_ids`, so every key of the borough index maps to a
non-empty region-id list.  (The postal-code index does not enjoy this
invariant, as the counterexample shows.) -/
theorem claim_C1 (raw : List (List Str)) (kv : Str × List Int)
    (hmem : kv ∈ (readUhf raw).2) : kv.2 ≠ [] :=
  ((readUhf_bdInv raw).1 kv hmem).2.2

/-- C1 (witness): on a concrete well-formed file the borough entry
`("Brooklyn", [205])` indeed has a non-empty value list. -/
theorem claim_C1_witness : ([205] : List Int) ≠ [] :=
  claim_C1 [[ltr "Brooklyn", ltr "UHF42", ltr "205", ltr "11232"]]
    (ltr "Brooklyn", [205]) (by decide)

/-- C2 (counterexample): as stated, the claim is false.  The first cell
`"-1"` parses as an integer (`_to_int_safe` succeeds), yet `read_pollution`
still skips row 0 as a header, because the code tests
`str(rows[0][0]).strip().isdigit()`, which rejects signed forms; the row is
consequently indexed nowhere. -/
theorem claim_C2_counterexample :
    (toIntSafe (ltr "-1")).isSome = true ∧
      startIdx [[ltr "-1", ltr "n", ltr "2009/06/01", ltr "2.0"]] = 1 ∧
      readPollution [[ltr "-1", ltr "n", ltr "2009/06/01", ltr "2.0"]] =
        ([], []) :=
  ⟨by decide, by decide, by decide⟩

/-- C2 (amended): `read_pollution` treats row 0 as data exactly when its
first cell, stripped, is a non-empty all-digits string; otherwise (including
signed integer forms) row 0 is skipped as a header. -/
theorem claim_C2 (c0 : Str) (cs : List Str) (rest : List (List Str)) :
    (pyIsDigit (pyStrip c0) = true →
      readPollution ((c0 :: cs) :: rest) =
        ((c0 :: cs) :: rest).foldl stepMeas ([], [])) ∧
    (pyIsDigit (pyStrip c0) = false →
      readPollution ((c0 :: cs) :: rest) = rest.foldl stepMeas ([], [])) := by
  constructor
  · intro h
    rw [readPollution, startIdx]
    simp [h]
  · intro h
    rw [readPollution, startIdx]
    simp [h]

/-- C2 (witness): a digit-led row 0 is kept as data and a textual row 0 is
skipped, on concrete inputs. -/
theorem claim_C2_witness :
    pyIsDigit (pyStrip (ltr "205")) = true ∧
      readPollution [[ltr "205", ltr "a", ltr "d", ltr "1.5"]] =
        [[ltr "205", ltr "a", ltr "d", ltr "1.5"]].foldl stepMeas ([], []) ∧
      pyIsDigit (pyStrip (ltr "Geo ID")) = false ∧
      readPollution [[ltr "Geo ID", ltr "a", ltr "d", ltr "1.5"]] =
        ([] : List (List Str)).foldl stepMeas ([], []) :=
  ⟨by decide,
   (claim_C2 (ltr "205") [ltr "a", ltr "d", ltr "1.5"] []).1 (by decide),
   by decide,
   (claim_C2 (ltr "Geo ID") [ltr "a", ltr "d", ltr "1.5"] []).2 (by decide)⟩

/-- C3: for every measurement file, each index of `read_pollution` is exactly
the in-file-order list of successfully parsed data rows restricted to the
looked-up key: valid rows appear exactly once in `by_uhf[region_id]` and
`by_date[date]`, and invalid rows (too short, or with an unparseable or
empty required field, i.e. `parseMeasRow = none`) appear in neither index
and do not disturb the order of the surrounding valid rows. -/
theorem claim_C3 (rows : List (List Str)) :
    (∀ uhfId : Int,
      alGet (readPollution rows).1 uhfId =
        ((rows.drop (startIdx rows)).filterMap parseMeasRow).filter
          (fun m => m.uhf = uhfId)) ∧
    (∀ dt : Str,
      alGet (readPollution rows).2 dt =
        ((rows.drop (startIdx rows)).filterMap parseMeasRow).filter
          (fun m => m.date = dt)) := by
  have h := polFold_get (rows.drop (startIdx rows)) ([], [])
  constructor
  · intro uhfId
    rw [readPollution, h.1 uhfId]
    rfl
  · intro dt
    rw [readPollution, h.2 dt]
    rfl

/-- C4: `_expand_uhf_code` implements exactly the expansion rule the
specification words (trim; all-digits, longer than 3, length a multiple of 3
gives the 3-character chunks; otherwise a singleton parsed integer or the
empty list), and the three quoted examples hold. -/
theorem claim_C4 :
    (∀ s : Str, expandUhfCode s = expandSpecRule s) ∧
      expandUhfCode (ltr "105106107") = [105, 106, 107] ∧
      expandUhfCode (ltr "205") = [205] ∧
      expandUhfCode (ltr "") = [] :=
  ⟨expandUhfCode_eq_spec, by decide, by decide, by decide⟩

/-- C5: a candidate cell is retained as a postal code iff its length is at
least 5 and its first 5 characters are all digits, the retained value being
those first 5 characters; the per-row result is deduplicated preserving
first-seen order (it equals the first-seen fold and has no duplicates); and
the three quoted examples hold. -/
theorem claim_C5 (cells : List Str) :
    (∀ z : Str, z ∈ zipsOfRow cells ↔
        ∃ c ∈ cells, 5 ≤ c.length ∧ pyIsDigit (c.take 5) = true ∧
          z = c.take 5) ∧
    (zipsOfRow cells).Nodup ∧
    zipsOfRow cells =
      (zipCandidates cells).foldl
        (fun acc z => if z ∈ acc then acc else acc ++ [z]) [] ∧
    zipsOfRow [ltr "104631234"] = [ltr "10463"] ∧
    zipsOfRow [ltr "104"] = [] ∧
    zipsOfRow [ltr "11232", ltr "11232"] = [ltr "11232"] := by
  refine ⟨?_, dedupSeen_nodup _ _, ?_, by decide, by decide, by decide⟩
  · intro z
    rw [zipsOfRow, mem_dedupSeen]
    simp [mem_zipCandidates]
  · rw [zipsOfRow]
    have h := dedupSeen_eq_foldl (zipCandidates cells) [] [] (by simp)
    simpa using h

/-- C6: `read_uhf` classifies a file as header-bearing exactly when some
cell of the first non-blank row, lower-cased, contains one of the five
keywords; on a keyword hit it dispatches to the Layout A parser over the
remaining rows, otherwise it processes every row (row 0 included) as
Layout B; in particular the data-looking first row
`["Bronx","UHF42","101","10463"]` is processed as a Layout B data row. -/
theorem claim_C6 (raw : List (List Str)) (r0 : List Str)
    (rest : List (List Str)) (h : cleanRows raw = r0 :: rest) :
    (rowHasKeyword r0 = true ↔
      ∃ c ∈ r0, ∃ kw ∈ geoKeywords, ∃ p q, lowerStr c = p ++ kw ++ q) ∧
    (rowHasKeyword r0 = true →
      readUhf raw =
        rest.foldl
          (rowA (findCol (r0.map lowerStr) [ltr "borough", ltr "boro"] 0)
            (findCol (r0.map lowerStr) [ltr "uhf", ltr "code", ltr "id"] 1)
            (findCol (r0.map lowerStr) [ltr "zip"] 2)) ([], [])) ∧
    (rowHasKeyword r0 = false →
      readUhf raw = (r0 :: rest).foldl rowB ([], [])) ∧
    readUhf [[ltr "Bronx", ltr "UHF42", ltr "101", ltr "10463"]] =
      ([(ltr "10463", [101])], [(ltr "Bronx", [101])]) := by
  refine ⟨rowHasKeyword_iff r0, ?_, ?_, by decide⟩
  · intro hh
    rw [readUhf, h]
    simp [hh]
  · intro hh
    rw [readUhf, h]
    simp [hh]

/-- C6 (witness): the boundary file whose only row is
`["Bronx","UHF42","101","10463"]` has no keyword cell and is dispatched to
the Layout B parser. -/
theorem claim_C6_witness :
    readUhf [[ltr "Bronx", ltr "UHF42", ltr "101", ltr "10463"]] =
      ([ltr "Bronx", ltr "UHF42", ltr "101", ltr "10463"] ::
        ([] : List (List Str))).foldl rowB ([], []) :=
  (claim_C6 [[ltr "Bronx", ltr "UHF42", ltr "101", ltr "10463"]]
    [ltr "Bronx", ltr "UHF42", ltr "101", ltr "10463"] []
    (by decide)).2.2.1 (by decide)

/-- C7: the end-to-end scenario: loading the one-row measurement file
`205,Sunset Park,2009/06/01,11.45` and the one-row Layout B geography file
`Brooklyn,UHF42,205,11232`, both `search_by_zip("11232", …)` and
`search_by_borough("brooklyn", …)` return exactly the single measurement
`("2009/06/01", 205, "Sunset Park", 11.45)` (11.45 = 1145/100). -/
theorem claim_C7 :
    searchByZip (ltr "11232")
        (readUhf [[ltr "Brooklyn", ltr "UHF42", ltr "205", ltr "11232"]]).1
        (readPollution
          [[ltr "205", ltr "Sunset Park", ltr "2009/06/01", ltr "11.45"]]).1 =
      [⟨ltr "2009/06/01", 205, ltr "Sunset Park", ⟨1145, 100⟩⟩] ∧
    searchByBorough (ltr "brooklyn")
        (readUhf [[ltr "Brooklyn", ltr "UHF42", ltr "205", ltr "11232"]]).2
        (readPollution
          [[ltr "205", ltr "Sunset Park", ltr "2009/06/01", ltr "11.45"]]).1 =
      [⟨ltr "2009/06/01", 205, ltr "Sunset Park", ⟨1145, 100⟩⟩] :=
  ⟨by decide, by decide⟩

/-- C8: every search function is total (the embedding is a total function)
and returns the empty list on a miss: an absent postal code, borough or date
key yields `[]`, an unparseable region-id input yields `[]`, and a parseable
region id absent from the index yields `[]`. -/
theorem claim_C8 :
    (∀ (zd : List (Str × List Int)) (ud : List (Int × List Meas)) (z : Str),
      alFindE zd z = none → searchByZip z zd ud = []) ∧
    (∀ (bd : List (Str × List Int)) (ud : List (Int × List Meas)) (b : Str),
      alFindE bd (normBorough b) = none → searchByBorough b bd ud = []) ∧
    (∀ (ud : List (Int × List Meas)) (u : Str),
      toIntSafe u = none → searchByUhf u ud = []) ∧
    (∀ (ud : List (Int × List Meas)) (u : Str) (n : Int),
      toIntSafe u = some n → alFindE ud n = none → searchByUhf u ud = []) ∧
    (∀ (dd : List (Str × List Meas)) (d : Str),
      alFindE dd (pyStrip d) = none → searchByDate d dd = []) := by
  refine ⟨?_, ?_, ?_, ?_, ?_⟩
  · intro zd ud z h
    simp [searchByZip, alGet, alGetD, h]
  · intro bd ud b h
    simp [searchByBorough, alGet, alGetD, h]
  · intro ud u h
    simp [searchByUhf, h]
  · intro ud u n h1 h2
    simp [searchByUhf, h1, alGet, alGetD, h2]
  · intro dd d h
    simp [searchByDate, alGet, alGetD, h]

/-- C8 (witness): concrete misses on empty indexes and an unparseable
region-id query all return the empty list. -/
theorem claim_C8_witness :
    searchByZip (ltr "99999") [] [] = [] ∧
    searchByBorough (ltr "nowhere") [] [] = [] ∧
    searchByUhf (ltr "abc") [] = [] ∧
    searchByUhf (ltr "42") [] = [] ∧
    searchByDate (ltr "2020/01/01") [] = [] :=
  ⟨claim_C8.1 [] [] (ltr "99999") (by decide),
   claim_C8.2.1 [] [] (ltr "nowhere") (by decide),
   claim_C8.2.2.1 [] (ltr "abc") (by decide),
   claim_C8.2.2.2.1 [] (ltr "42") 42 (by decide) (by decide),
   claim_C8.2.2.2.2 [] (ltr "2020/01/01") (by decide)⟩

/-- C9: when the input file is missing, each loader emits its diagnostic
(the `Bool` component of the wrapper) and returns two empty mappings; the
embedded loaders are total functions, so no exception is possible. -/
theorem claim_C9 (f g : Option (List (List Str))) :
    (f = none → readPollutionFile f = (true, ([], []))) ∧
    (g = none → readUhfFile g = (true, ([], []))) := by
  constructor
  · rintro rfl
    rfl
  · rintro rfl
    rfl

/-- C9 (witness): the missing-file case, evaluated. -/
theorem claim_C9_witness :
    readPollutionFile none = (true, ([], [])) ∧
      readUhfFile none = (true, ([], [])) :=
  ⟨(claim_C9 none none).1 rfl, (claim_C9 none none).2 rfl⟩

/-- C10: every key of the borough index built by `read_uhf` is a non-empty
fixed point of `_norm_borough`, and consequently a lookup with query `name`
(performed by `search_by_borough` at key `_norm_borough name`) finds the
stored entry exactly when `_norm_borough name` equals its key. -/
theorem claim_C10 (raw : List (List Str)) (kv : Str × List Int)
    (hmem : kv ∈ (readUhf raw).2) :
    kv.1 ≠ [] ∧ normBorough kv.1 = kv.1 ∧
      ∀ name : Str,
        (alFindE (readUhf raw).2 (normBorough name) = some kv ↔
          normBorough name = kv.1) := by
  have hinv := readUhf_bdInv raw
  obtain ⟨h1, h2, -⟩ := hinv.1 kv hmem
  refine ⟨h1, h2, ?_⟩
  intro name
  constructor
  · intro hf
    exact (alFindE_key hf).symm
  · intro he
    rw [he]
    exact alFindE_of_mem hinv.2 hmem

/-- C10 (witness): on a concrete file the stored key `"Brooklyn"` is a fixed
point of `_norm_borough` and is found exactly by queries normalizing to it,
such as `"BROOKLYN "`. -/
theorem claim_C10_witness :
    normBorough (ltr "Brooklyn") = ltr "Brooklyn" ∧
      (alFindE (readUhf [[ltr "Brooklyn", ltr "UHF42", ltr "205",
          ltr "11232"]]).2 (normBorough (ltr "BROOKLYN ")) =
        some (ltr "Brooklyn", [205]) ↔
        normBorough (ltr "BROOKLYN ") = ltr "Brooklyn") := by
  have h := claim_C10 [[ltr "Brooklyn", ltr "UHF42", ltr "205", ltr "11232"]]
    (ltr "Brooklyn", [205]) (by decide)
  exact ⟨h.2.1, h.2.2 (ltr "BROOKLYN ")⟩
